import Mathlib

/-!
Verification of the `hash` command-line tool (`src/hash/src/main.rs`): a
multi-algorithm digest engine (MD5, SHA-256, BLAKE3) over ordered text/file
inputs, with a strict hex-literal decoder, one-shot and incremental modes,
and a framed or quiet output formatter.

Strings from the Rust source are modelled as `List Char` (Rust `str` is a
sequence of Unicode scalar values); where the source measures UTF-8 byte
length (`str::len`) we measure the UTF-8 byte size of the character list.
Machine integers (`u8`, `u32`, `u64`) are modelled as `Nat` with explicit
truncation (`% 256`, `% 2^32`, ...) at the points where the source's
arithmetic can wrap.
-/

/-- Unicode White_Space property, as used by Rust's `char::is_whitespace`
(the separator test in `hex_to_byte_slice` and `str::trim`). -/
def rustIsWhitespace (c : Char) : Bool :=
  let n := c.toNat
  (9 ≤ n && n ≤ 13) || n == 32 || n == 0x85 || n == 0xA0 || n == 0x1680 ||
  (0x2000 ≤ n && n ≤ 0x200A) || n == 0x2028 || n == 0x2029 || n == 0x202F ||
  n == 0x205F || n == 0x3000

/-- UTF-8 byte length of a character list: models Rust `str::len`. -/
def utf8Len (l : List Char) : Nat :=
  (l.map Char.utf8Size).sum

/-- UTF-8 encoding of one character, as the list of its byte values:
models the bytes Rust sees in `str::as_bytes`. -/
def charUtf8 (c : Char) : List Nat :=
  let n := c.toNat
  if n < 0x80 then [n]
  else if n < 0x800 then [0xC0 + n / 64, 0x80 + n % 64]
  else if n < 0x10000 then [0xE0 + n / 4096, 0x80 + n / 64 % 64, 0x80 + n % 64]
  else [0xF0 + n / 262144, 0x80 + n / 4096 % 64, 0x80 + n / 64 % 64, 0x80 + n % 64]

/-- UTF-8 bytes of a string: models Rust `str::as_bytes().to_vec()`. -/
def utf8Bytes (s : String) : List Nat :=
  (s.data.map charUtf8).flatten

deriving instance DecidableEq for Except

/-- The error type of the hex decoder (`HexError` in the source); the
offending token (and character) are carried for the error message. -/
inductive HexError where
  | InvalidHexPrefix (hex : List Char)
  | InvalidLength (hex : List Char)
  | InvalidHexCharacter (ch : Char) (hex : List Char)
deriving DecidableEq, Repr

/-- `val` from the source: the value of one hex digit character, or an
invalid-character error naming the character and the whole token. -/
def val (ch : Char) (hex : List Char) : Except HexError Nat :=
  if 'A' ≤ ch ∧ ch ≤ 'F' then Except.ok (ch.toNat - 'A'.toNat + 10)
  else if 'a' ≤ ch ∧ ch ≤ 'f' then Except.ok (ch.toNat - 'a'.toNat + 10)
  else if '0' ≤ ch ∧ ch ≤ '9' then Except.ok (ch.toNat - '0'.toNat)
  else Except.error ( HexError.InvalidHexCharacter ch hex)

/-- Whether the token begins with `0x` or `0X` (Rust `str::starts_with` on
these two-byte ASCII patterns is exactly a two-character test). -/
def hexPfxOk (hex : List Char) : Bool :=
  match hex with
  | c1 :: c2 :: _ => c1 == '0' && (c2 == 'x' || c2 == 'X')
  | _ => false

/-- `hex_to_byte` from the source: a token must have UTF-8 length exactly 4,
begin with `0x`/`0X`, and its remaining two characters must be hex digits;
the byte is `hi * 16 + lo` (no `u8` overflow: both nibbles are below 16). -/
def hex_to_byte (hex : List Char) : Except HexError Nat :=
  if utf8Len hex ≠ 4 then Except.error ( HexError.InvalidLength hex)
  else if ¬(hexPfxOk hex = true) then Except.error ( HexError.InvalidHexPrefix hex)
  else
    match hex.drop 2 with
    | [] => Except.error ( HexError.InvalidLength hex)
    | hi :: rest =>
      match val hi hex with
      | Except.error e => Except.error e
      | Except.ok hv =>
        match rest with
        | [] => Except.error ( HexError.InvalidLength hex)
        | lo :: _ =>
          match val lo hex with
          | Except.error e => Except.error e
          | Except.ok lv => Except.ok (hv * 16 + lv)

/-- Separator characters of `hex_to_byte_slice`: whitespace or comma. -/
def isSepChar (c : Char) : Bool :=
  rustIsWhitespace c || c == ','

/-- Rust `str::split` on a character predicate: fields between separator
occurrences, keeping empty fields (the empty string yields one empty field). -/
def rustSplit (p : Char → Bool) : List Char → List (List Char)
  | [] => [[]]
  | c :: cs =>
    if p c then [] :: rustSplit p cs
    else
      match rustSplit p cs with
      | [] => [[c]]
      | t :: ts => (c :: t) :: ts

/-- Rust `str::trim`: drop leading and trailing whitespace characters. -/
def rustTrim (l : List Char) : List Char :=
  ((l.dropWhile rustIsWhitespace).reverse.dropWhile rustIsWhitespace).reverse

/-- The token stream of `hex_to_byte_slice`: split on whitespace/comma,
trim each field, keep the non-empty ones. -/
def hexTokens (s : List Char) : List (List Char) :=
  ((rustSplit isSepChar s).map rustTrim).filter (fun t => !t.isEmpty)

/-- Decode every token in order, stopping at the first failure (the source
prints the error and exits the process there; the error value models that
data-format abort). -/
def decodeTokens : List (List Char) → Except HexError (List Nat)
  | [] => Except.ok []
  | t :: ts =>
    match hex_to_byte t with
    | Except.error e => Except.error e
    | Except.ok b =>
      match decodeTokens ts with
      | Except.error e => Except.error e
      | Except.ok bs => Except.ok (b :: bs)

/-- `hex_to_byte_slice` from the source, with the process exit on a bad
token modelled as the error branch of `Except`. -/
def hex_to_byte_slice (s : List Char) : Except HexError (List Nat) :=
  decodeTokens (hexTokens s)

/-- Lowercase hex digit character for a nibble, as produced by Rust's
`x` formatting. -/
def hexDigitChar (n : Nat) : Char :=
  if n < 10 then Char.ofNat (48 + n) else Char.ofNat (87 + n)

/-- Two-character lowercase rendering of one byte (`format "02x"` of a `u8`;
the `% 256` records the `u8` range of the formatted value). -/
def byteHex (b : Nat) : List Char :=
  [hexDigitChar (b % 256 / 16), hexDigitChar (b % 16)]

/-- `bytes_to_hex_string` from the source: two lowercase hex characters per
byte, concatenated with no separators. -/
def bytes_to_hex_string (bytes : List Nat) : String :=
  String.mk ((bytes.map byteHex).flatten)

/-! ## Hash algorithm primitives

The source calls the external crates `sha2`, `md5` and `blake3`.  They are
modelled here by executable implementations of the corresponding standard
algorithms (FIPS 180-4 SHA-256, RFC 1321 MD5, the BLAKE3 specification),
over byte lists with explicit 32-bit truncation. -/

/-- Rotate a 32-bit value right by `n` (for `n ≤ 32` and `x < 2^32`). -/
def rotr32 (n x : Nat) : Nat :=
  x / 2 ^ n + x % 2 ^ n * 2 ^ (32 - n)

/-- Rotate a 32-bit value left by `n` (for `n ≤ 32` and `x < 2^32`). -/
def rotl32 (n x : Nat) : Nat :=
  x % 2 ^ (32 - n) * 2 ^ n + x / 2 ^ (32 - n)

/-- Big-endian byte rendering of a value on `k` bytes. -/
def natToBytesBE (k n : Nat) : List Nat :=
  (List.range k).map (fun i => n / 2 ^ (8 * (k - 1 - i)) % 256)

/-- Little-endian byte rendering of a value on `k` bytes. -/
def natToBytesLE (k n : Nat) : List Nat :=
  (List.range k).map (fun i => n / 2 ^ (8 * i) % 256)

/-- Split a list into chunks of `k + 1` elements (the successor argument
keeps the chunk size positive; the last chunk may be shorter). -/
def chunksOfPos (k : Nat) (l : List Nat) : List (List Nat) :=
  (List.range ((l.length + k) / (k + 1))).map
    (fun i => (l.drop (i * (k + 1))).take (k + 1))

/-- Iterate a function `n` times. -/
def iterFun (f : α → α) : Nat → α → α
  | 0, a => a
  | n + 1, a => iterFun f n (f a)

/-- SHA-256 round constants (FIPS 180-4). -/
def shaK : List Nat :=
  [1116352408, 1899447441, 3049323471, 3921009573, 961987163,
   1508970993, 2453635748, 2870763221, 3624381080, 310598401,
   607225278, 1426881987, 1925078388, 2162078206, 2614888103,
   3248222580, 3835390401, 4022224774, 264347078, 604807628,
   770255983, 1249150122, 1555081692, 1996064986, 2554220882,
   2821834349, 2952996808, 3210313671, 3336571891, 3584528711,
   113926993, 338241895, 666307205, 773529912, 1294757372,
   1396182291, 1695183700, 1986661051, 2177026350, 2456956037,
   2730485921, 2820302411, 3259730800, 3345764771, 3516065817,
   3600352804, 4094571909, 275423344, 430227734, 506948616,
   659060556, 883997877, 958139571, 1322822218, 1537002063,
   1747873779, 1955562222, 2024104815, 2227730452, 2361852424,
   2428436474, 2756734187, 3204031479, 3329325298]

/-- SHA-256 initial state (FIPS 180-4). -/
def shaH0 : List Nat :=
  [1779033703, 3144134277, 1013904242, 2773480762,
   1359893119, 2600822924, 528734635, 1541459225]

/-- The 16 big-endian 32-bit words of one (zero-padded) 64-byte block. -/
def blockWordsBE (block : List Nat) : List Nat :=
  (List.range 16).map (fun i =>
    match (block.drop (4 * i)).take 4 with
    | [b0, b1, b2, b3] => b0 % 256 * 2 ^ 24 + b1 % 256 * 2 ^ 16 + b2 % 256 * 2 ^ 8 + b3 % 256
    | _ => 0)

/-- One message-schedule extension step: append word `w(i)` for `i ≥ 16`. -/
def sha256ExtendStep (w : List Nat) : List Nat :=
  let i := w.length
  let w15 := w.getD (i - 15) 0
  let w2 := w.getD (i - 2) 0
  let s0 := rotr32 7 w15 ^^^ rotr32 18 w15 ^^^ w15 / 2 ^ 3
  let s1 := rotr32 17 w2 ^^^ rotr32 19 w2 ^^^ w2 / 2 ^ 10
  w ++ [(w.getD (i - 16) 0 + s0 + w.getD (i - 7) 0 + s1) % 2 ^ 32]

/-- One SHA-256 compression round on the state `[a,b,c,d,e,f,g,h]`. -/
def sha256Round (st : List Nat) (k : Nat) (w : Nat) : List Nat :=
  match st with
  | [a, b, c, d, e, f, g, h] =>
    let S1 := rotr32 6 e ^^^ rotr32 11 e ^^^ rotr32 25 e
    let ch := e &&& f ^^^ ((e ^^^ 0xffffffff) &&& g)
    let temp1 := (h + S1 + ch + k + w) % 2 ^ 32
    let S0 := rotr32 2 a ^^^ rotr32 13 a ^^^ rotr32 22 a
    let maj := a &&& b ^^^ (a &&& c) ^^^ (b &&& c)
    let temp2 := (S0 + maj) % 2 ^ 32
    [(temp1 + temp2) % 2 ^ 32, a, b, c, (d + temp1) % 2 ^ 32, e, f, g]
  | _ => st

/-- SHA-256 compression of one 64-byte block into the running state. -/
def sha256Compress (h : List Nat) (block : List Nat) : List Nat :=
  let w := iterFun sha256ExtendStep 48 (blockWordsBE block)
  let st := (shaK.zip w).foldl (fun st p => sha256Round st p.1 p.2) h
  (h.zip st).map (fun p => (p.1 + p.2) % 2 ^ 32)

/-- Merkle–Damgård padding: `0x80`, zeros to 56 mod 64, 8-byte big-endian
bit length. -/
def sha256Pad (msg : List Nat) : List Nat :=
  msg ++ [0x80] ++ List.replicate ((119 - msg.length % 64) % 64) 0
      ++ natToBytesBE 8 (msg.length * 8)

/-- SHA-256 digest of a byte list: models `sha2::Sha256::digest` of
`HashImpl::sha256hash`. -/
def sha256hash (input : List Nat) : List Nat :=
  let final := (chunksOfPos 63 (sha256Pad input)).foldl sha256Compress shaH0
  (final.map (natToBytesBE 4)).flatten

/-- MD5 sine-derived round constants (RFC 1321). -/
def md5K : List Nat :=
  [0xd76aa478, 0xe8c7b756, 0x242070db, 0xc1bdceee, 0xf57c0faf, 0x4787c62a,
   0xa8304613, 0xfd469501, 0x698098d8, 0x8b44f7af, 0xffff5bb1, 0x895cd7be,
   0x6b901122, 0xfd987193, 0xa679438e, 0x49b40821, 0xf61e2562, 0xc040b340,
   0x265e5a51, 0xe9b6c7aa, 0xd62f105d, 0x02441453, 0xd8a1e681, 0xe7d3fbc8,
   0x21e1cde6, 0xc33707d6, 0xf4d50d87, 0x455a14ed, 0xa9e3e905, 0xfcefa3f8,
   0x676f02d9, 0x8d2a4c8a, 0xfffa3942, 0x8771f681, 0x6d9d6122, 0xfde5380c,
   0xa4beea44, 0x4bdecfa9, 0xf6bb4b60, 0xbebfbc70, 0x289b7ec6, 0xeaa127fa,
   0xd4ef3085, 0x04881d05, 0xd9d4d039, 0xe6db99e5, 0x1fa27cf8, 0xc4ac5665,
   0xf4292244, 0x432aff97, 0xab9423a7, 0xfc93a039, 0x655b59c3, 0x8f0ccc92,
   0xffeff47d, 0x85845dd1, 0x6fa87e4f, 0xfe2ce6e0, 0xa3014314, 0x4e0811a1,
   0xf7537e82, 0xbd3af235, 0x2ad7d2bb, 0xeb86d391]

/-- MD5 per-round left-rotation amounts (RFC 1321). -/
def md5S : List Nat :=
  [7, 12, 17, 22, 7, 12, 17, 22, 7, 12, 17, 22, 7, 12, 17, 22,
   5, 9, 14, 20, 5, 9, 14, 20, 5, 9, 14, 20, 5, 9, 14, 20,
   4, 11, 16, 23, 4, 11, 16, 23, 4, 11, 16, 23, 4, 11, 16, 23,
   6, 10, 15, 21, 6, 10, 15, 21, 6, 10, 15, 21, 6, 10, 15, 21]

/-- The 16 little-endian 32-bit words of one (zero-padded) 64-byte block. -/
def blockWordsLE (block : List Nat) : List Nat :=
  (List.range 16).map (fun i =>
    match (block.drop (4 * i)).take 4 with
    | b0 :: rest =>
      b0 % 256 + (rest.getD 0 0) % 256 * 2 ^ 8 + (rest.getD 1 0) % 256 * 2 ^ 16
        + (rest.getD 2 0) % 256 * 2 ^ 24
    | [] => 0)

/-- One MD5 step `i` (0 ≤ i < 64) on the state `[a,b,c,d]`. -/
def md5Step (m : List Nat) (st : List Nat) (i : Nat) : List Nat :=
  match st with
  | [a, b, c, d] =>
    let f :=
      if i < 16 then b &&& c ||| ((b ^^^ 0xffffffff) &&& d)
      else if i < 32 then d &&& b ||| ((d ^^^ 0xffffffff) &&& c)
      else if i < 48 then b ^^^ c ^^^ d
      else c ^^^ (b ||| (d ^^^ 0xffffffff))
    let g :=
      if i < 16 then i
      else if i < 32 then (5 * i + 1) % 16
      else if i < 48 then (3 * i + 5) % 16
      else 7 * i % 16
    let fv := (f + a + md5K.getD i 0 + m.getD g 0) % 2 ^ 32
    [d, (b + rotl32 (md5S.getD i 0) fv) % 2 ^ 32, b, c]
  | _ => st

/-- MD5 compression of one 64-byte block into the running state. -/
def md5Compress (h : List Nat) (block : List Nat) : List Nat :=
  let st := (List.range 64).foldl (md5Step (blockWordsLE block)) h
  (h.zip st).map (fun p => (p.1 + p.2) % 2 ^ 32)

/-- MD5 padding: `0x80`, zeros to 56 mod 64, 8-byte little-endian bit
length. -/
def md5Pad (msg : List Nat) : List Nat :=
  msg ++ [0x80] ++ List.replicate ((119 - msg.length % 64) % 64) 0
      ++ natToBytesLE 8 (msg.length * 8)

/-- MD5 digest of a byte list: models `md5::compute` of
`HashImpl::md5hash`. -/
def md5hash (input : List Nat) : List Nat :=
  let final := (chunksOfPos 63 (md5Pad input)).foldl md5Compress
    [0x67452301, 0xefcdab89, 0x98badcfe, 0x10325476]
  (final.map (natToBytesLE 4)).flatten

/-- BLAKE3 initial values (the SHA-256 initial state words). -/
def blake3IV : List Nat :=
  [1779033703, 3144134277, 1013904242, 2773480762,
   1359893119, 2600822924, 528734635, 1541459225]

/-- BLAKE3 message word permutation applied between rounds. -/
def b3permute (m : List Nat) : List Nat :=
  [2, 6, 3, 10, 7, 0, 4, 13, 1, 11, 12, 5, 9, 14, 15, 8].map (fun i => m.getD i 0)

/-- The BLAKE3 quarter-round `G` on state positions `a b c d` with message
words `mx my`. -/
def b3g (st : List Nat) (a b c d mx my : Nat) : List Nat :=
  let va := (st.getD a 0 + st.getD b 0 + mx) % 2 ^ 32
  let vd := rotr32 16 (st.getD d 0 ^^^ va)
  let vc := (st.getD c 0 + vd) % 2 ^ 32
  let vb := rotr32 12 (st.getD b 0 ^^^ vc)
  let va' := (va + vb + my) % 2 ^ 32
  let vd' := rotr32 8 (vd ^^^ va')
  let vc' := (vc + vd') % 2 ^ 32
  let vb' := rotr32 7 (vb ^^^ vc')
  (((st.set a va').set b vb').set c vc').set d vd'

/-- One BLAKE3 round: the four column mixes then the four diagonal mixes. -/
def b3round (st : List Nat) (m : List Nat) : List Nat :=
  let st := b3g st 0 4 8 12 (m.getD 0 0) (m.getD 1 0)
  let st := b3g st 1 5 9 13 (m.getD 2 0) (m.getD 3 0)
  let st := b3g st 2 6 10 14 (m.getD 4 0) (m.getD 5 0)
  let st := b3g st 3 7 11 15 (m.getD 6 0) (m.getD 7 0)
  let st := b3g st 0 5 10 15 (m.getD 8 0) (m.getD 9 0)
  let st := b3g st 1 6 11 12 (m.getD 10 0) (m.getD 11 0)
  let st := b3g st 2 7 8 13 (m.getD 12 0) (m.getD 13 0)
  b3g st 3 4 9 14 (m.getD 14 0) (m.getD 15 0)

/-- The BLAKE3 compression function; returns the 8-word chaining value
(`v[i] xor v[i+8]`), which is also the first 8 words of the root output. -/
def b3compress (h : List Nat) (m : List Nat) (t blen flags : Nat) : List Nat :=
  let v0 := h.take 8 ++ blake3IV.take 4 ++ [t % 2 ^ 32, t / 2 ^ 32 % 2 ^ 32, blen, flags]
  let vm := iterFun (fun p => (b3round p.1 p.2, b3permute p.2)) 7 (v0, m)
  (List.range 8).map (fun i => vm.1.getD i 0 ^^^ vm.1.getD (i + 8) 0)

/-- Chaining value of one chunk (≤ 1024 bytes) at chunk counter `t`:
compress each 64-byte block in order with the CHUNK_START / CHUNK_END (and,
for a root chunk, ROOT) flags. -/
def b3chunkCV (chunk : List Nat) (t : Nat) (isRoot : Bool) : List Nat :=
  let blocks := if chunk.isEmpty then [[]] else chunksOfPos 63 chunk
  let n := blocks.length
  (List.range n).foldl (fun h i =>
    let blk := blocks.getD i []
    let flags := (if i == 0 then 1 else 0)
      + (if i == n - 1 then 2 + (if isRoot then 8 else 0) else 0)
    b3compress h (blockWordsLE blk) t blk.length flags) blake3IV

/-- Chaining value of a parent node over two child chaining values (flag
PARENT, plus ROOT at the root). -/
def b3parentCV (l r : List Nat) (isRoot : Bool) : List Nat :=
  b3compress blake3IV (l ++ r) 0 64 (4 + if isRoot then 8 else 0)

/-- The left-subtree width of a BLAKE3 tree over `n ≥ 2` chunks: the
largest power of two strictly below `n`. -/
def b3split (n : Nat) : Nat :=
  2 ^ (n - 1).log2

/-- Chaining value of the subtree over the given chunks, whose first chunk
has counter `t0` (non-root nodes only). -/
def b3subtreeCV (chunks : List (List Nat)) (t0 : Nat) : List Nat :=
  match chunks with
  | [] => blake3IV
  | [c] => b3chunkCV c t0 false
  | c1 :: c2 :: rest =>
    let cs := c1 :: c2 :: rest
    let k := b3split cs.length
    b3parentCV (b3subtreeCV (cs.take k) t0) (b3subtreeCV (cs.drop k) (t0 + k)) false
termination_by chunks.length
decreasing_by
  · have hk : 2 ^ (rest.length + 1).log2 ≤ rest.length + 1 := by
      rw [Nat.log2_eq_log_two]
      exact Nat.pow_log_le_self 2 (Nat.succ_ne_zero _)
    simp [b3split]
    omega
  · have hk : 1 ≤ b3split (rest.length + 1 + 1) := Nat.one_le_two_pow
    simp
    omega

/-- BLAKE3 digest (default 32-byte output) of a byte list: models
`blake3::hash` of `HashImpl::blake3hash`. -/
def blake3hash (input : List Nat) : List Nat :=
  let chunks := if input.isEmpty then [[]] else chunksOfPos 1023 input
  let words :=
    match chunks with
    | [] => blake3IV
    | [c] => b3chunkCV c 0 true
    | c1 :: c2 :: rest =>
      let cs := c1 :: c2 :: rest
      let k := b3split cs.length
      b3parentCV (b3subtreeCV (cs.take k) 0) (b3subtreeCV (cs.drop k) k) true
  (words.map (natToBytesLE 4)).flatten

/-! ## Data model: algorithm, engine, output style, inputs, compute -/

/-- `HashAlgorithm` from the source. -/
inductive HashAlgorithm where
  | MD5
  | SHA256
  | BLAKE3
deriving DecidableEq, Repr

/-- The string Rust's `Debug` formatting prints for a `HashAlgorithm`
(used by the `[<ALGO> HASH]` line of `OutputStyle::summary`). -/
def HashAlgorithm.debugStr : HashAlgorithm → String
  | HashAlgorithm.MD5 => "MD5"
  | HashAlgorithm.SHA256 => "SHA256"
  | HashAlgorithm.BLAKE3 => "BLAKE3"

/-- `OutputStyle` from the source (`Default` gives empty strings, length 0
and the default algorithm SHA256). -/
structure OutputStyle where
  entry : String
  len : Nat
  entry_type : String
  algo : HashAlgorithm
  hash : String
deriving DecidableEq, Repr

/-- `OutputStyle::new` (= `Default::default`). -/
def OutputStyle.new : OutputStyle :=
  ⟨"", 0, "", HashAlgorithm.SHA256, ""⟩

/-- `OutputStyle::add_file`: keep the first 40 characters of the path,
record how many were kept, and tag the entry as FILE. -/
def OutputStyle.add_file (st : OutputStyle) (path : String) : OutputStyle :=
  let entry_chars := path.data.take 40
  ⟨String.mk entry_chars, entry_chars.length, "FILE", st.algo, st.hash⟩

/-- `OutputStyle::add_text`: keep the first 40 characters of the text,
record how many were kept, and tag the entry as TEXT. -/
def OutputStyle.add_text (st : OutputStyle) (text : String) : OutputStyle :=
  let entry_chars := text.data.take 40
  ⟨String.mk entry_chars, entry_chars.length, "TEXT", st.algo, st.hash⟩

/-- `OutputStyle::set_algorithm`. -/
def OutputStyle.set_algorithm (st : OutputStyle) (algorithm : HashAlgorithm) : OutputStyle :=
  ⟨st.entry, st.len, st.entry_type, algorithm, st.hash⟩

/-- `OutputStyle::add_hash`. -/
def OutputStyle.add_hash (st : OutputStyle) (hash_str : String) : OutputStyle :=
  ⟨st.entry, st.len, st.entry_type, st.algo, hash_str⟩

/-- `OutputStyle::summary`: the framed block — delimiter line, entry line
(with `...` exactly when the recorded length is not below 40), hash line,
delimiter line, with a trailing newline. -/
def OutputStyle.summary (st : OutputStyle) (action : String) : String :=
  let etc := if st.len < 40 then "" else "..."
  let surr_line := String.mk (List.replicate 80 '=')
  let entry_line := "[" ++ action ++ " " ++ st.entry_type ++ "] [" ++ st.entry ++ "]" ++ etc
  let hash_line := "[" ++ st.algo.debugStr ++ " HASH] [" ++ st.hash ++ "]"
  surr_line ++ "\n" ++ entry_line ++ "\n" ++ hash_line ++ "\n" ++ surr_line ++ "\n"

/-- `HashImpl` from the source: the engine's state is just the bytes
accumulated so far. -/
structure HashImpl where
  bytes : List Nat
deriving DecidableEq, Repr

/-- `HashImpl::new`: empty accumulation buffer. -/
def HashImpl.new : HashImpl :=
  ⟨[]⟩

/-- `HashImpl::update`: append the input to the running buffer. -/
def HashImpl.update (h : HashImpl) (input : List Nat) : HashImpl :=
  ⟨h.bytes ++ input⟩

/-- `HashImpl::digest`: dispatch on the algorithm. -/
def HashImpl.digest (input : List Nat) : HashAlgorithm → List Nat
  | HashAlgorithm.MD5 => md5hash input
  | HashAlgorithm.SHA256 => sha256hash input
  | HashAlgorithm.BLAKE3 => blake3hash input

/-- `HashImpl::hex_digest`: hex digest of the accumulated bytes. -/
def HashImpl.hex_digest (h : HashImpl) (algo : HashAlgorithm) : String :=
  bytes_to_hex_string (HashImpl.digest h.bytes algo)

/-- `HashImpl::hex_digest_input`: one-shot hex digest of the given bytes. -/
def HashImpl.hex_digest_input (input : List Nat) (algo : HashAlgorithm) : String :=
  bytes_to_hex_string (HashImpl.digest input algo)

/-- `HashInput` from the source: a literal text or a file path. -/
inductive HashInput where
  | Text (s : String)
  | File (s : String)
deriving DecidableEq, Repr

/-- `get_inputs` from the source, over the already-extracted parallel
(index, value) collections clap reports for `--text` and `--file`: a merge
that repeatedly takes the side whose next index is smaller (ties go to the
file side), then appends whichever tail remains. -/
def get_inputs : List (Nat × String) → List (Nat × String) → List HashInput
  | ts, [] => ts.map (fun p => HashInput.Text p.2)
  | [], fs => fs.map (fun p => HashInput.File p.2)
  | t :: ts, f :: fs =>
    if t.1 < f.1 then HashInput.Text t.2 :: get_inputs ts (f :: fs)
    else HashInput.File f.2 :: get_inputs (t :: ts) fs
termination_by ts fs => ts.length + fs.length

/-- The same merge keeping each entry's origin index, to state the ordering
contract of the resolver. -/
def get_inputs_idx : List (Nat × String) → List (Nat × String) → List (Nat × HashInput)
  | ts, [] => ts.map (fun p => (p.1, HashInput.Text p.2))
  | [], fs => fs.map (fun p => (p.1, HashInput.File p.2))
  | t :: ts, f :: fs =>
    if t.1 < f.1 then (t.1, HashInput.Text t.2) :: get_inputs_idx ts (f :: fs)
    else (f.1, HashInput.File f.2) :: get_inputs_idx (t :: ts) fs
termination_by ts fs => ts.length + fs.length

/-- The run's configuration flags (`matches.is_present` of `compute`). -/
structure Flags where
  md5 : Bool
  blake3 : Bool
  hexInput : Bool
  updateOnInput : Bool
  quiet : Bool
deriving DecidableEq, Repr

/-- Algorithm selection at the top of `compute`: `--md5` wins, then
`--blake3`, else the SHA256 default. -/
def algoOf (fl : Flags) : HashAlgorithm :=
  if fl.md5 then HashAlgorithm.MD5
  else if fl.blake3 then HashAlgorithm.BLAKE3
  else HashAlgorithm.SHA256

/-- How `compute` aborts the process: `exitcode::DATAERR` on a hex decode
failure, `exitcode::IOERR` on an unreadable file. -/
inductive ExitKind where
  | dataErr
  | ioErr
deriving DecidableEq, Repr

/-- The file system as `compute` sees it: `std::fs::read_to_string` (hex
mode) and `std::fs::read` (raw mode) are external collaborators, modelled
as oracles from path to content or a read error. -/
structure Env where
  readToString : String → Except String (List Char)
  readBytes : String → Except String (List Nat)

/-- The byte acquisition step of `compute`'s loop body for one input:
literal UTF-8 bytes or hex-decoded bytes for a text, file content (raw or
hex-decoded) for a file; a decode failure is the data-format abort and a
read failure the I/O abort. -/
def inputBytes (fl : Flags) (env : Env) : HashInput → Except ExitKind (List Nat)
  | HashInput.Text text =>
    if fl.hexInput then
      match hex_to_byte_slice text.data with
      | Except.ok bs => Except.ok bs
      | Except.error _ => Except.error ExitKind.dataErr
    else Except.ok (utf8Bytes text)
  | HashInput.File file =>
    if fl.hexInput then
      match env.readToString file with
      | Except.ok s =>
        match hex_to_byte_slice s with
        | Except.ok bs => Except.ok bs
        | Except.error _ => Except.error ExitKind.dataErr
      | Except.error _ => Except.error ExitKind.ioErr
    else
      match env.readBytes file with
      | Except.ok v => Except.ok v
      | Except.error _ => Except.error ExitKind.ioErr

/-- The output style `compute` builds for one input before hashing (the
algorithm is set first; in quiet mode the entry is never added, but then
`summary` is never called either, so the styled line below is only used
when quiet is off). -/
def styleFor (fl : Flags) : HashInput → OutputStyle
  | HashInput.Text text => (OutputStyle.new.set_algorithm (algoOf fl)).add_text text
  | HashInput.File file => (OutputStyle.new.set_algorithm (algoOf fl)).add_file file

/-- The loop of `compute`, from a given hasher state: returns the list of
printed stdout lines (one element per `println!`) and, if the loop aborted,
the exit kind.  In update mode each input is folded into the hasher and the
running digest printed; otherwise each input is hashed independently. -/
def computeFrom (fl : Flags) (env : Env) (hasher : HashImpl) :
    List HashInput → List String × Option ExitKind
  | [] => ([], none)
  | inp :: rest =>
    match inputBytes fl env inp with
    | Except.error ek => ([], some ek)
    | Except.ok input_bytes =>
      if fl.updateOnInput then
        let hasher' := hasher.update input_bytes
        let digest := hasher'.hex_digest (algoOf fl)
        let line := if fl.quiet then digest
          else ((styleFor fl inp).add_hash digest).summary "UPDATE"
        let r := computeFrom fl env hasher' rest
        (line :: r.1, r.2)
      else
        let digest := HashImpl.hex_digest_input input_bytes (algoOf fl)
        let line := if fl.quiet then digest
          else ((styleFor fl inp).add_hash digest).summary "COMPUTE"
        let r := computeFrom fl env hasher rest
        (line :: r.1, r.2)

/-- `compute` from the source: run the loop from a fresh hasher. -/
def compute (fl : Flags) (env : Env) (inputs : List HashInput) :
    List String × Option ExitKind :=
  computeFrom fl env HashImpl.new inputs

/-! ## Auxiliary definitions for the statements -/

/-- Modelled from the spec: render one byte as a four-character `0xNN`
token, high nibble then low nibble (the encoder of the hex round-trip
property; lowercase digits as in the spec's `'0x19 0xab 0xcd 0xef'`). -/
def encodeByte (b : Nat) : List Char :=
  ['0', 'x', hexDigitChar (b / 16), hexDigitChar (b % 16)]

/-- Modelled from the spec: join tokens with single spaces. -/
def joinSpaces : List (List Char) → List Char
  | [] => []
  | [t] => t
  | t :: t2 :: ts => t ++ ' ' :: joinSpaces (t2 :: ts)

/-- The hex-digit test of `val` (its three accepting character ranges). -/
def isHexDigitChar (c : Char) : Bool :=
  decide ('A' ≤ c ∧ c ≤ 'F') || decide ('a' ≤ c ∧ c ≤ 'f') || decide ('0' ≤ c ∧ c ≤ '9')

/-- A lowercase hex digest character: `0`-`9` or `a`-`f`. -/
def isLowerHexChar (c : Char) : Bool :=
  decide ('0' ≤ c ∧ c ≤ '9') || decide ('a' ≤ c ∧ c ≤ 'f')

/-- The text entries of an index-annotated resolver output, with their
indices. -/
def textEntry (p : Nat × HashInput) : Option (Nat × String) :=
  match p.2 with
  | HashInput.Text s => some (p.1, s)
  | HashInput.File _ => none

/-- The file entries of an index-annotated resolver output, with their
indices. -/
def fileEntry (p : Nat × HashInput) : Option (Nat × String) :=
  match p.2 with
  | HashInput.Text _ => none
  | HashInput.File s => some (p.1, s)

/-- A 40-character entry (for the truncation boundary). -/
def fortyA : String :=
  String.mk (List.replicate 40 'a')

/-- A 41-character entry (strictly longer than the preview limit). -/
def fortyOneB : String :=
  String.mk (List.replicate 41 'b')

/-- Flags of a `--update --quiet` run with default algorithm. -/
def flagsUpdateQuiet : Flags :=
  ⟨false, false, false, true, true⟩

/-- Flags of a `--hex --quiet` one-shot run with default algorithm. -/
def flagsHexQuiet : Flags :=
  ⟨false, false, true, false, true⟩

/-- Flags of a plain `--quiet` one-shot run with default algorithm. -/
def flagsQuiet : Flags :=
  ⟨false, false, false, false, true⟩

/-- An environment in which no file is readable (the runs below use only
text inputs, so it is never consulted). -/
def envEmpty : Env :=
  ⟨fun _ => Except.error "unreadable", fun _ => Except.error "unreadable"⟩


/-! ## Claim theorems -/

/-- C2: for every pair of byte slices `x` and `y` and every algorithm,
updating a fresh incremental state with `x` then `y` and taking the hex
digest equals the one-shot hex digest of the concatenation. -/
theorem update_update_hex_digest_eq_oneshot_concat (algo : HashAlgorithm) (x y : List Nat) :
    ((HashImpl.new.update x).update y).hex_digest algo
      = HashImpl.hex_digest_input (x ++ y) algo := by
  simp [HashImpl.new, HashImpl.update, HashImpl.hex_digest, HashImpl.hex_digest_input]

/-- C10: with an empty resolved input sequence, `compute` prints nothing
and exits normally, whatever the flags (mode, quiet) and environment: all
output happens inside the per-input loop. -/
theorem compute_empty_inputs_prints_nothing (fl : Flags) (env : Env) :
    compute fl env [] = ([], none) :=
  rfl

/-- C8 counterexample: the one-shot SHA-256 hex digest of the empty byte
sequence is not the spec's 63-character fixture string (the fixture lost
the final `5`). -/
theorem sha256_empty_digest_ne_spec_fixture :
    HashImpl.hex_digest_input [] HashAlgorithm.SHA256
      ≠ "e3b0c44298fc1c149afbf4c8996fb92427ae41e4649b934ca495991b7852b85" := by
  decide

/-- C8 amended: the one-shot SHA-256 hex digest of the empty byte sequence
is the standard 64-character vector `e3b0...b855`. -/
theorem sha256_empty_digest_eq_standard_vector :
    HashImpl.hex_digest_input [] HashAlgorithm.SHA256
      = "e3b0c44298fc1c149afbf4c8996fb92427ae41e4649b934ca495991b7852b855" := by
  decide

/-- C1 (code bug witness): in update mode with two text inputs `a`, `b`
(quiet, default algorithm), `compute` prints **two** digest lines — the
first is the digest of the intermediate prefix `a` alone — instead of the
single post-consumption digest the spec and the `--update` help text
describe. -/
theorem update_mode_emits_digest_per_input :
    compute flagsUpdateQuiet envEmpty [HashInput.Text "a", HashInput.Text "b"]
      = ([HashImpl.hex_digest_input (utf8Bytes "a") HashAlgorithm.SHA256,
          HashImpl.hex_digest_input (utf8Bytes "ab") HashAlgorithm.SHA256], none)
    ∧ (compute flagsUpdateQuiet envEmpty [HashInput.Text "a", HashInput.Text "b"]).1.length = 2 := by
  exact ⟨by decide, by decide⟩

set_option maxRecDepth 16384 in
/-- C6 counterexample: an entry of exactly 40 characters is rendered
**with** the ellipsis (`self.len < 40` is false at 40), contradicting the
claim that no ellipsis is shown at exactly 40 characters. -/
theorem forty_char_entry_shows_ellipsis :
    fortyA.length = 40 ∧
    (OutputStyle.new.add_text fortyA).summary "COMPUTE"
      = String.mk (List.replicate 80 '=') ++ "\n[COMPUTE TEXT] [" ++ fortyA
        ++ "]...\n[SHA256 HASH] []\n" ++ String.mk (List.replicate 80 '=') ++ "\n" ∧
    (OutputStyle.new.add_text fortyA).summary "COMPUTE"
      ≠ String.mk (List.replicate 80 '=') ++ "\n[COMPUTE TEXT] [" ++ fortyA
        ++ "]\n[SHA256 HASH] []\n" ++ String.mk (List.replicate 80 '=') ++ "\n" := by
  refine ⟨by decide, ?_, ?_⟩
  · apply String.ext
    decide
  · intro hcontra
    have := congrArg String.data hcontra
    revert this
    decide

/-- C6 amended: the preview is the first 40 characters of the entry (so an
entry longer than 40 characters is truncated to exactly 40), and the
ellipsis mark appears exactly when the original is **at least** 40
characters long — in particular an entry of exactly 40 characters is shown
in full but with the ellipsis. -/
theorem add_text_truncation_and_ellipsis (st : OutputStyle) (t action : String) :
    (st.add_text t).entry = String.mk (t.data.take 40) ∧
    (t.length > 40 → (st.add_text t).entry.length = 40) ∧
    (st.add_text t).summary action
      = String.mk (List.replicate 80 '=') ++ "\n"
        ++ ("[" ++ action ++ " " ++ "TEXT" ++ "] [" ++ String.mk (t.data.take 40) ++ "]"
            ++ (if 40 ≤ t.length then "..." else "")) ++ "\n"
        ++ ("[" ++ st.algo.debugStr ++ " HASH] [" ++ st.hash ++ "]") ++ "\n"
        ++ String.mk (List.replicate 80 '=') ++ "\n" := by
  have ht : t.length = t.data.length := rfl
  refine ⟨rfl, ?_, ?_⟩
  · intro h
    simp only [OutputStyle.add_text, String.length_mk, List.length_take]
    omega
  · rcases Nat.lt_or_ge t.data.length 40 with h | h
    · have h1 : (List.take 40 t.data).length < 40 := by
        rw [List.length_take]; omega
      have h2 : ¬ (40 ≤ t.length) := by omega
      simp only [OutputStyle.summary, OutputStyle.add_text]
      rw [if_pos h1, if_neg h2]
    · have h1 : ¬ ((List.take 40 t.data).length < 40) := by
        rw [List.length_take]; omega
      have h2 : (40 ≤ t.length) := by omega
      simp only [OutputStyle.summary, OutputStyle.add_text]
      rw [if_neg h1, if_pos h2]

/-- Witness for the amended C6 theorem at a 41-character entry. -/
theorem add_text_truncation_and_ellipsis_witness :
    fortyOneB.length > 40 ∧ (OutputStyle.new.add_text fortyOneB).entry.length = 40 :=
  ⟨by decide, (add_text_truncation_and_ellipsis OutputStyle.new fortyOneB "COMPUTE").2.1 (by decide)⟩

/-- A character outside the three hex-digit ranges makes `val` fail with
the invalid-character error naming it. -/
theorem val_of_not_hexDigit (c : Char) (hex : List Char) (h : isHexDigitChar c = false) :
    val c hex = Except.error ( HexError.InvalidHexCharacter c hex) := by
  unfold isHexDigitChar at h
  simp only [Bool.or_eq_false_iff, decide_eq_false_iff_not] at h
  unfold val
  rw [if_neg h.1.1, if_neg h.1.2, if_neg h.2]

/-- `val` either succeeds, or the character fails the hex-digit test and
the error names it. -/
theorem val_cases (c : Char) (hex : List Char) :
    (∃ n, val c hex = Except.ok n) ∨
    (isHexDigitChar c = false ∧
      val c hex = Except.error ( HexError.InvalidHexCharacter c hex)) := by
  unfold val
  split
  · exact Or.inl ⟨_, rfl⟩
  · split
    · exact Or.inl ⟨_, rfl⟩
    · split
      · exact Or.inl ⟨_, rfl⟩
      · refine Or.inr ⟨?_, rfl⟩
        unfold isHexDigitChar
        simp only [Bool.or_eq_false_iff, decide_eq_false_iff_not]
        exact ⟨⟨by assumption, by assumption⟩, by assumption⟩

/-- Evaluation of `hex_to_byte` once the length and prefix checks pass and
the tail holds at least two characters. -/
theorem hex_to_byte_eval (hex : List Char) (h4 : utf8Len hex = 4) (hp : hexPfxOk hex = true)
    (c1 c2 : Char) (r : List Char) (hd : hex.drop 2 = c1 :: c2 :: r) :
    hex_to_byte hex =
      (match val c1 hex with
       | Except.error e => Except.error e
       | Except.ok hv =>
         match val c2 hex with
         | Except.error e => Except.error e
         | Except.ok lv => Except.ok (hv * 16 + lv)) := by
  unfold hex_to_byte
  rw [if_neg (by simp [h4]), if_neg (by simp [hp]), hd]

/-- C5: each malformed token is rejected with its specific error kind — a
token whose (UTF-8) length is not 4 with the wrong-length error, a length-4
token not beginning with `0x`/`0X` with the bad-prefix error, and a
well-prefixed token whose first or second nibble character is not a hex
digit with the invalid-character error naming that character. -/
theorem hex_to_byte_rejects_malformed_tokens :
    (∀ hex : List Char, utf8Len hex ≠ 4 →
       hex_to_byte hex = Except.error ( HexError.InvalidLength hex)) ∧
    (∀ hex : List Char, utf8Len hex = 4 → hexPfxOk hex = false →
       hex_to_byte hex = Except.error ( HexError.InvalidHexPrefix hex)) ∧
    (∀ (hex : List Char) (c1 c2 : Char) (r : List Char),
       utf8Len hex = 4 → hexPfxOk hex = true → hex.drop 2 = c1 :: c2 :: r →
       (isHexDigitChar c1 = false →
          hex_to_byte hex = Except.error ( HexError.InvalidHexCharacter c1 hex)) ∧
       (isHexDigitChar c1 = true → isHexDigitChar c2 = false →
          hex_to_byte hex = Except.error ( HexError.InvalidHexCharacter c2 hex))) := by
  refine ⟨?_, ?_, ?_⟩
  · intro hex h
    unfold hex_to_byte
    rw [if_pos h]
  · intro hex h4 hp
    unfold hex_to_byte
    rw [if_neg (by simp [h4]), if_pos (by simp [hp])]
  · intro hex c1 c2 r h4 hp hd
    constructor
    · intro hc1
      rw [hex_to_byte_eval hex h4 hp c1 c2 r hd, val_of_not_hexDigit c1 hex hc1]
    · intro hc1 hc2
      rw [hex_to_byte_eval hex h4 hp c1 c2 r hd]
      rcases val_cases c1 hex with ⟨n, hn⟩ | ⟨hf, _⟩
      · rw [hn, val_of_not_hexDigit c2 hex hc2]
      · rw [hc1] at hf
        cases hf

/-- Witness for C5 at the spec's three example tokens `0x1`, `1x12`,
`0xzz`. -/
theorem hex_to_byte_rejects_malformed_tokens_witness :
    hex_to_byte "0x1".data = Except.error ( HexError.InvalidLength "0x1".data) ∧
    hex_to_byte "1x12".data = Except.error ( HexError.InvalidHexPrefix "1x12".data) ∧
    hex_to_byte "0xzz".data = Except.error ( HexError.InvalidHexCharacter 'z' "0xzz".data) :=
  ⟨hex_to_byte_rejects_malformed_tokens.1 "0x1".data (by decide),
   hex_to_byte_rejects_malformed_tokens.2.1 "1x12".data (by decide) (by decide),
   (hex_to_byte_rejects_malformed_tokens.2.2 "0xzz".data 'z' 'z' []
     (by decide) (by decide) (by decide)).1 (by decide)⟩

/-- Hex digit characters are neither input separators nor whitespace. -/
theorem hexDigitChar_not_sep : ∀ n < 16,
    isSepChar (hexDigitChar n) = false ∧ rustIsWhitespace (hexDigitChar n) = false := by
  decide

/-- No character of an encoded byte token is a separator or whitespace. -/
theorem encodeByte_no_sep (b : Nat) (hb : b < 256) :
    ∀ c ∈ encodeByte b, isSepChar c = false ∧ rustIsWhitespace c = false := by
  intro c hc
  have hhi : b / 16 < 16 := by
    rw [Nat.div_lt_iff_lt_mul (by norm_num)]
    omega
  have hlo : b % 16 < 16 := Nat.mod_lt _ (by norm_num)
  simp only [encodeByte, List.mem_cons, List.not_mem_nil, or_false] at hc
  rcases hc with rfl | rfl | rfl | rfl
  · exact ⟨by decide, by decide⟩
  · exact ⟨by decide, by decide⟩
  · exact hexDigitChar_not_sep _ hhi
  · exact hexDigitChar_not_sep _ hlo

/-- A list on which the predicate is everywhere false is untouched by
`dropWhile`. -/
theorem dropWhile_all_false (p : Char → Bool) (l : List Char)
    (h : ∀ c ∈ l, p c = false) : l.dropWhile p = l := by
  cases l with
  | nil => rfl
  | cons c cs => simp [List.dropWhile_cons, h c (by simp)]

/-- `rustTrim` is the identity on whitespace-free tokens. -/
theorem rustTrim_of_no_ws (l : List Char) (h : ∀ c ∈ l, rustIsWhitespace c = false) :
    rustTrim l = l := by
  unfold rustTrim
  rw [dropWhile_all_false _ _ h, dropWhile_all_false, List.reverse_reverse]
  intro c hc
  exact h c (List.mem_reverse.mp hc)

/-- Splitting a separator-free list yields that single field. -/
theorem rustSplit_of_no_sep (p : Char → Bool) (t : List Char)
    (h : ∀ c ∈ t, p c = false) : rustSplit p t = [t] := by
  induction t with
  | nil => rfl
  | cons c cs ih =>
    unfold rustSplit
    rw [if_neg (by simp [h c (by simp)]), ih (fun c hc => h c (List.mem_cons_of_mem _ hc))]

/-- Splitting `t ++ sep :: s` with separator-free `t` peels off `t` as the
first field. -/
theorem rustSplit_append (p : Char → Bool) (t s : List Char) (c0 : Char)
    (hc0 : p c0 = true) (h : ∀ c ∈ t, p c = false) :
    rustSplit p (t ++ c0 :: s) = t :: rustSplit p s := by
  induction t with
  | nil =>
    simp only [List.nil_append, rustSplit, hc0, if_true]
  | cons c cs ih =>
    have hc : p c = false := h c (by simp)
    simp only [List.cons_append, rustSplit, hc, Bool.false_eq_true, if_false, List.append_eq,
               ih (fun c hc => h c (List.mem_cons_of_mem _ hc))]

/-- The token stream of a space-joined list of encoded bytes is exactly
that list of tokens. -/
theorem hexTokens_joinSpaces (bs : List Nat) (h : ∀ b ∈ bs, b < 256) :
    hexTokens (joinSpaces (bs.map encodeByte)) = bs.map encodeByte := by
  induction bs with
  | nil => rfl
  | cons b bs ih =>
    have hb := h b (by simp)
    have hsep : ∀ c ∈ encodeByte b, isSepChar c = false :=
      fun c hc => (encodeByte_no_sep b hb c hc).1
    have hws : ∀ c ∈ encodeByte b, rustIsWhitespace c = false :=
      fun c hc => (encodeByte_no_sep b hb c hc).2
    have hne : ¬(encodeByte b).isEmpty := by simp [encodeByte]
    cases bs with
    | nil =>
      show hexTokens (encodeByte b) = [encodeByte b]
      unfold hexTokens
      rw [rustSplit_of_no_sep _ _ hsep]
      simp [rustTrim_of_no_ws _ hws, hne]
    | cons b2 bs2 =>
      show hexTokens (encodeByte b ++ ' ' :: joinSpaces ((b2 :: bs2).map encodeByte))
        = encodeByte b :: (b2 :: bs2).map encodeByte
      unfold hexTokens
      rw [rustSplit_append _ _ _ ' ' (by decide) hsep]
      simp only [List.map_cons, List.filter_cons, rustTrim_of_no_ws _ hws]
      rw [if_pos (by simp [hne])]
      exact congrArg _ (ih (fun x hx => h x (List.mem_cons_of_mem _ hx)))

set_option maxRecDepth 65536 in
/-- Decoding an encoded byte token recovers the byte, for every byte value
0–255. -/
theorem hex_to_byte_encodeByte : ∀ b < 256, hex_to_byte (encodeByte b) = Except.ok b := by
  decide

/-- Decoding a list of encoded byte tokens recovers the byte list. -/
theorem decodeTokens_encodeByte (bs : List Nat) (h : ∀ b ∈ bs, b < 256) :
    decodeTokens (bs.map encodeByte) = Except.ok bs := by
  induction bs with
  | nil => rfl
  | cons b bs ih =>
    show decodeTokens (encodeByte b :: bs.map encodeByte) = Except.ok (b :: bs)
    unfold decodeTokens
    rw [hex_to_byte_encodeByte b (h b (by simp)),
        ih (fun x hx => h x (List.mem_cons_of_mem _ hx))]

/-- C4: rendering each byte as a `0xNN` token, joining with spaces, and
running the hex decoder yields back exactly the original byte list, for
every list of byte values 0–255. -/
theorem hex_roundtrip_decode_encode (bs : List Nat) (h : ∀ b ∈ bs, b < 256) :
    hex_to_byte_slice (joinSpaces (bs.map encodeByte)) = Except.ok bs := by
  unfold hex_to_byte_slice
  rw [hexTokens_joinSpaces bs h, decodeTokens_encodeByte bs h]

/-- Witness for C4 at the spec's example byte list `0x19 0xab 0xcd 0xef`. -/
theorem hex_roundtrip_decode_encode_witness :
    (∀ b ∈ [25, 171, 205, 239], b < 256) ∧
    hex_to_byte_slice (joinSpaces ([25, 171, 205, 239].map encodeByte))
      = Except.ok [25, 171, 205, 239] :=
  ⟨by decide, hex_roundtrip_decode_encode [25, 171, 205, 239] (by decide)⟩

/-- If one input's byte acquisition aborts, the whole run prints exactly
the lines of the preceding inputs and exits with that abort kind: nothing
is printed for the failing input or for any later input. -/
theorem computeFrom_abort (fl : Flags) (env : Env) (inp : HashInput) (k : ExitKind)
    (hk : inputBytes fl env inp = Except.error k) :
    ∀ (pre : List HashInput), ∀ (rest : List HashInput) (hasher : HashImpl),
      (computeFrom fl env hasher pre).2 = none →
      computeFrom fl env hasher (pre ++ inp :: rest)
        = ((computeFrom fl env hasher pre).1, some k) := by
  intro pre
  induction pre with
  | nil =>
    intro rest hasher _
    show computeFrom fl env hasher (inp :: rest) = ([], some k)
    unfold computeFrom
    rw [hk]
  | cons i pre ih =>
    intro rest hasher hnone
    cases hib : inputBytes fl env i with
    | error e =>
      exfalso
      unfold computeFrom at hnone
      rw [hib] at hnone
      exact Option.noConfusion hnone
    | ok bytes =>
      by_cases hu : fl.updateOnInput = true
      · simp only [List.cons_append, computeFrom, hib, hu, if_true, List.append_eq] at hnone ⊢
        rw [ih rest _ hnone]
      · simp only [List.cons_append, computeFrom, hib, hu, Bool.false_eq_true, if_false,
          List.append_eq] at hnone ⊢
        rw [ih rest _ hnone]

/-- C9: in hex mode, an input whose hex decoding fails (a text, or a file
whose content was read) aborts the run with the data-format exit: the run's
output is exactly the output of the preceding inputs — no digest is emitted
for the failing input or for anything after it. -/
theorem hex_decode_failure_aborts_without_digest (fl : Flags) (env : Env)
    (pre rest : List HashInput) :
    (∀ t : String, fl.hexInput = true →
       (compute fl env pre).2 = none →
       (∃ e, hex_to_byte_slice t.data = Except.error e) →
       compute fl env (pre ++ HashInput.Text t :: rest)
         = ((compute fl env pre).1, some ExitKind.dataErr)) ∧
    (∀ (f : String) (s : List Char), fl.hexInput = true →
       (compute fl env pre).2 = none →
       env.readToString f = Except.ok s →
       (∃ e, hex_to_byte_slice s = Except.error e) →
       compute fl env (pre ++ HashInput.File f :: rest)
         = ((compute fl env pre).1, some ExitKind.dataErr)) := by
  constructor
  · rintro t hhex hnone ⟨e, he⟩
    exact computeFrom_abort fl env (HashInput.Text t) ExitKind.dataErr
      (by simp [inputBytes, hhex, he]) pre rest HashImpl.new hnone
  · rintro f s hhex hnone hread ⟨e, he⟩
    exact computeFrom_abort fl env (HashInput.File f) ExitKind.dataErr
      (by simp [inputBytes, hhex, hread, he]) pre rest HashImpl.new hnone

/-- Witness for C9: a `--hex --quiet` run on the single bad token `0xzz`
prints nothing and aborts with the data-format exit. -/
theorem hex_decode_failure_aborts_without_digest_witness :
    flagsHexQuiet.hexInput = true ∧
    (compute flagsHexQuiet envEmpty []).2 = none ∧
    hex_to_byte_slice "0xzz".data
      = Except.error ( HexError.InvalidHexCharacter 'z' "0xzz".data) ∧
    compute flagsHexQuiet envEmpty [HashInput.Text "0xzz"]
      = ([], some ExitKind.dataErr) :=
  ⟨rfl, rfl, by decide, by
    have h := (hex_decode_failure_aborts_without_digest flagsHexQuiet envEmpty [] []).1
      "0xzz" rfl rfl ⟨ HexError.InvalidHexCharacter 'z' "0xzz".data, by decide⟩
    simpa using h⟩

/-- Every nibble renders to a lowercase hex digit character. -/
theorem hexDigitChar_lower : ∀ n < 16, isLowerHexChar (hexDigitChar n) = true := by
  decide

/-- Both characters of a rendered byte are lowercase hex digits. -/
theorem byteHex_lower (b : Nat) : ∀ c ∈ byteHex b, isLowerHexChar c = true := by
  intro c hc
  have hhi : b % 256 / 16 < 16 := by
    rw [Nat.div_lt_iff_lt_mul (by norm_num)]
    exact lt_of_lt_of_le (Nat.mod_lt _ (by norm_num)) (by norm_num)
  have hlo : b % 16 < 16 := Nat.mod_lt _ (by norm_num)
  simp only [byteHex, List.mem_cons, List.not_mem_nil, or_false] at hc
  rcases hc with rfl | rfl
  · exact hexDigitChar_lower _ hhi
  · exact hexDigitChar_lower _ hlo

/-- A rendered hex digest consists solely of lowercase hex digit
characters. -/
theorem bytes_to_hex_string_all_lower (bytes : List Nat) :
    (bytes_to_hex_string bytes).data.all isLowerHexChar = true := by
  rw [List.all_eq_true]
  intro c hc
  show isLowerHexChar c = true
  have hc' : c ∈ (bytes.map byteHex).flatten := hc
  obtain ⟨l, hl, hcl⟩ := List.mem_flatten.mp hc'
  obtain ⟨b, _, rfl⟩ := List.mem_map.mp hl
  exact byteHex_lower b c hcl

/-- In quiet mode every printed line is the hex digest of some byte list
under the run's algorithm (the running buffer in update mode, the input's
bytes in one-shot mode). -/
theorem computeFrom_quiet_lines (fl : Flags) (env : Env) (hq : fl.quiet = true) :
    ∀ (inputs : List HashInput) (hasher : HashImpl) (s : String),
      s ∈ (computeFrom fl env hasher inputs).1 →
      ∃ bs, s = HashImpl.hex_digest_input bs (algoOf fl) := by
  intro inputs
  induction inputs with
  | nil =>
    intro hasher s hs
    simp [computeFrom] at hs
  | cons i rest ih =>
    intro hasher s hs
    cases hib : inputBytes fl env i with
    | error e =>
      rw [show computeFrom fl env hasher (i :: rest) = ([], some e) by
        unfold computeFrom; rw [hib]] at hs
      simp at hs
    | ok bytes =>
      by_cases hu : fl.updateOnInput = true
      · simp only [computeFrom, hib, hu, hq, if_true] at hs
        rcases List.mem_cons.mp hs with rfl | hmem
        · exact ⟨(hasher.update bytes).bytes, rfl⟩
        · exact ih _ _ hmem
      · simp only [computeFrom, hib, hu, hq, Bool.false_eq_true, if_false, if_true] at hs
        rcases List.mem_cons.mp hs with rfl | hmem
        · exact ⟨bytes, rfl⟩
        · exact ih _ _ hmem

/-- C7: with the quiet flag set, in both modes, every line `compute` emits
is a bare digest — the lowercase hex digest string of some byte list under
the run's algorithm, made of hex digit characters only (so no delimiter,
entry or algorithm-tag line is ever printed). -/
theorem quiet_output_is_bare_lowercase_hex (fl : Flags) (env : Env)
    (inputs : List HashInput) (hq : fl.quiet = true) :
    ∀ s ∈ (compute fl env inputs).1,
      (∃ bs, s = HashImpl.hex_digest_input bs (algoOf fl)) ∧
      s.data.all isLowerHexChar = true := by
  intro s hs
  obtain ⟨bs, rfl⟩ := computeFrom_quiet_lines fl env hq inputs HashImpl.new s hs
  refine ⟨⟨bs, rfl⟩, ?_⟩
  show (HashImpl.hex_digest_input bs (algoOf fl)).data.all isLowerHexChar = true
  unfold HashImpl.hex_digest_input
  exact bytes_to_hex_string_all_lower _

/-- Witness for C7: the single line of a quiet one-shot run on the text
`a` is a bare lowercase hex digest. -/
theorem quiet_output_is_bare_lowercase_hex_witness :
    (∃ bs, HashImpl.hex_digest_input (utf8Bytes "a") HashAlgorithm.SHA256
       = HashImpl.hex_digest_input bs (algoOf flagsQuiet)) ∧
    (HashImpl.hex_digest_input (utf8Bytes "a") HashAlgorithm.SHA256).data.all
      isLowerHexChar = true :=
  quiet_output_is_bare_lowercase_hex flagsQuiet envEmpty [HashInput.Text "a"] rfl
    (HashImpl.hex_digest_input (utf8Bytes "a") HashAlgorithm.SHA256) (by decide)

/-- Text-annotated pairs project back to the original text collection. -/
theorem filterMap_textEntry_textMap (ts : List (Nat × String)) :
    (ts.map (fun p => (p.1, HashInput.Text p.2))).filterMap textEntry = ts := by
  induction ts with
  | nil => rfl
  | cons t ts ih => simp [textEntry, ih]

/-- File-annotated pairs contain no text entries. -/
theorem filterMap_textEntry_fileMap (fs : List (Nat × String)) :
    (fs.map (fun p => (p.1, HashInput.File p.2))).filterMap textEntry = [] := by
  induction fs with
  | nil => rfl
  | cons f fs ih => simp [textEntry, ih]

/-- File-annotated pairs project back to the original file collection. -/
theorem filterMap_fileEntry_fileMap (fs : List (Nat × String)) :
    (fs.map (fun p => (p.1, HashInput.File p.2))).filterMap fileEntry = fs := by
  induction fs with
  | nil => rfl
  | cons f fs ih => simp [fileEntry, ih]

/-- Text-annotated pairs contain no file entries. -/
theorem filterMap_fileEntry_textMap (ts : List (Nat × String)) :
    (ts.map (fun p => (p.1, HashInput.Text p.2))).filterMap fileEntry = [] := by
  induction ts with
  | nil => rfl
  | cons t ts ih => simp [fileEntry, ih]

/-- `get_inputs` is the index-annotated merge with the indices dropped. -/
theorem get_inputs_eq_idx : ∀ ts fs : List (Nat × String),
    get_inputs ts fs = (get_inputs_idx ts fs).map Prod.snd := by
  intro ts fs
  induction ts, fs using get_inputs_idx.induct with
  | case1 ts => simp [get_inputs, get_inputs_idx]
  | case2 fs h =>
    cases fs with
    | nil => simp [get_inputs, get_inputs_idx]
    | cons f fs => simp [get_inputs, get_inputs_idx]
  | case3 t ts f fs hlt ih => simp [get_inputs, get_inputs_idx, hlt, ih]
  | case4 t ts f fs hge ih => simp [get_inputs, get_inputs_idx, hge, ih]

/-- Every index of the annotated merge comes from one of the two sides. -/
theorem get_inputs_idx_fst_mem : ∀ (ts fs : List (Nat × String)) (x : Nat),
    x ∈ (get_inputs_idx ts fs).map Prod.fst →
    x ∈ ts.map Prod.fst ∨ x ∈ fs.map Prod.fst := by
  intro ts fs
  induction ts, fs using get_inputs_idx.induct with
  | case1 ts =>
    intro x hx
    left
    simpa [get_inputs_idx, List.map_map, Function.comp] using hx
  | case2 fs h =>
    cases fs with
    | nil =>
      intro x hx
      simp [get_inputs_idx] at hx
    | cons f fs =>
      intro x hx
      right
      simpa [get_inputs_idx, List.map_map, Function.comp] using hx
  | case3 t ts f fs hlt ih =>
    intro x hx
    simp only [get_inputs_idx, hlt, if_true, List.map_cons, List.mem_cons] at hx
    rcases hx with rfl | hx
    · left; simp
    · rcases ih x hx with h | h
      · left; exact List.mem_cons_of_mem _ h
      · right; exact h
  | case4 t ts f fs hge ih =>
    intro x hx
    simp only [get_inputs_idx, hge, if_false, List.map_cons, List.mem_cons] at hx
    rcases hx with rfl | hx
    · right; simp
    · rcases ih x hx with h | h
      · left; exact h
      · right; exact List.mem_cons_of_mem _ h

/-- With strictly increasing indices on each side and no index shared
across sides, the annotated merge is strictly increasing in the index. -/
theorem get_inputs_idx_sorted : ∀ ts fs : List (Nat × String),
    (ts.map Prod.fst).Pairwise (· < ·) →
    (fs.map Prod.fst).Pairwise (· < ·) →
    (∀ a ∈ ts.map Prod.fst, ∀ b ∈ fs.map Prod.fst, a ≠ b) →
    ((get_inputs_idx ts fs).map Prod.fst).Pairwise (· < ·) := by
  intro ts fs
  induction ts, fs using get_inputs_idx.induct with
  | case1 ts =>
    intro hts _ _
    simpa [get_inputs_idx, List.map_map, Function.comp] using hts
  | case2 fs h =>
    cases fs with
    | nil =>
      intro _ _ _
      simp [get_inputs_idx]
    | cons f fs =>
      intro _ hfs _
      simpa [get_inputs_idx, List.map_map, Function.comp] using hfs
  | case3 t ts f fs hlt ih =>
    intro hts hfs hdisj
    simp only [get_inputs_idx, hlt, if_true, List.map_cons]
    refine List.Pairwise.cons ?_ (ih (List.pairwise_cons.mp hts).2 hfs ?_)
    · intro x hx
      rcases get_inputs_idx_fst_mem ts (f :: fs) x hx with hin | hin
      · exact (List.pairwise_cons.mp hts).1 x hin
      · simp only [List.map_cons, List.mem_cons] at hin
        rcases hin with rfl | hin
        · exact hlt
        · exact lt_trans hlt ((List.pairwise_cons.mp hfs).1 x hin)
    · intro a ha b hb
      exact hdisj a (List.mem_cons_of_mem _ ha) b hb
  | case4 t ts f fs hge ih =>
    intro hts hfs hdisj
    have hne : t.1 ≠ f.1 := hdisj t.1 (by simp) f.1 (by simp)
    have hflt : f.1 < t.1 := lt_of_le_of_ne (Nat.le_of_not_lt hge) (fun he => hne he.symm)
    simp only [get_inputs_idx, hge, if_false, List.map_cons]
    refine List.Pairwise.cons ?_ (ih hts (List.pairwise_cons.mp hfs).2 ?_)
    · intro x hx
      rcases get_inputs_idx_fst_mem (t :: ts) fs x hx with hin | hin
      · simp only [List.map_cons, List.mem_cons] at hin
        rcases hin with rfl | hin
        · exact hflt
        · exact lt_trans hflt ((List.pairwise_cons.mp hts).1 x hin)
      · exact (List.pairwise_cons.mp hfs).1 x hin
    · intro a ha b hb
      exact hdisj a ha b (List.mem_cons_of_mem _ hb)

/-- The text entries of the annotated merge, in order, are exactly the
text side. -/
theorem get_inputs_idx_texts : ∀ ts fs : List (Nat × String),
    (get_inputs_idx ts fs).filterMap textEntry = ts := by
  intro ts fs
  induction ts, fs using get_inputs_idx.induct with
  | case1 ts =>
    rw [show get_inputs_idx ts [] = ts.map (fun p => (p.1, HashInput.Text p.2)) from by
      simp [get_inputs_idx]]
    exact filterMap_textEntry_textMap ts
  | case2 fs h =>
    cases fs with
    | nil => simp [get_inputs_idx]
    | cons f fs =>
      rw [show get_inputs_idx [] (f :: fs) = (f :: fs).map (fun p => (p.1, HashInput.File p.2))
        from by simp [get_inputs_idx]]
      exact filterMap_textEntry_fileMap (f :: fs)
  | case3 t ts f fs hlt ih => simp [get_inputs_idx, hlt, textEntry, ih]
  | case4 t ts f fs hge ih => simp [get_inputs_idx, hge, textEntry, ih]

/-- The file entries of the annotated merge, in order, are exactly the
file side. -/
theorem get_inputs_idx_files : ∀ ts fs : List (Nat × String),
    (get_inputs_idx ts fs).filterMap fileEntry = fs := by
  intro ts fs
  induction ts, fs using get_inputs_idx.induct with
  | case1 ts =>
    rw [show get_inputs_idx ts [] = ts.map (fun p => (p.1, HashInput.Text p.2)) from by
      simp [get_inputs_idx]]
    exact filterMap_fileEntry_textMap ts
  | case2 fs h =>
    cases fs with
    | nil => simp [get_inputs_idx]
    | cons f fs =>
      rw [show get_inputs_idx [] (f :: fs) = (f :: fs).map (fun p => (p.1, HashInput.File p.2))
        from by simp [get_inputs_idx]]
      exact filterMap_fileEntry_fileMap (f :: fs)
  | case3 t ts f fs hlt ih => simp [get_inputs_idx, hlt, fileEntry, ih]
  | case4 t ts f fs hge ih => simp [get_inputs_idx, hge, fileEntry, ih]

/-- C3: for index-sorted collections with pairwise-distinct indices, the
resolver produces the single merged sequence ordered by origin index
ascending, preserving the relative order (and content) of each variant. -/
theorem get_inputs_ordered_merge (ts fs : List (Nat × String))
    (hts : (ts.map Prod.fst).Pairwise (· < ·))
    (hfs : (fs.map Prod.fst).Pairwise (· < ·))
    (hdisj : ∀ a ∈ ts.map Prod.fst, ∀ b ∈ fs.map Prod.fst, a ≠ b) :
    get_inputs ts fs = (get_inputs_idx ts fs).map Prod.snd ∧
    ((get_inputs_idx ts fs).map Prod.fst).Pairwise (· < ·) ∧
    (get_inputs_idx ts fs).filterMap textEntry = ts ∧
    (get_inputs_idx ts fs).filterMap fileEntry = fs :=
  ⟨get_inputs_eq_idx ts fs, get_inputs_idx_sorted ts fs hts hfs hdisj,
   get_inputs_idx_texts ts fs, get_inputs_idx_files ts fs⟩

/-- Witness for C3 at the spec's example: text indices 0, 2 and file index
1 resolve to `[Text A, File f, Text B]`, with strictly ascending annotated
indices. -/
theorem get_inputs_ordered_merge_witness :
    get_inputs [(0, "A"), (2, "B")] [(1, "f")]
      = [HashInput.Text "A", HashInput.File "f", HashInput.Text "B"] ∧
    ((get_inputs_idx [(0, "A"), (2, "B")] [(1, "f")]).map Prod.fst).Pairwise (· < ·) := by
  have h := get_inputs_ordered_merge [(0, "A"), (2, "B")] [(1, "f")]
    (by decide) (by decide) (by decide)
  refine ⟨?_, h.2.1⟩
  rw [h.1]
  simp [get_inputs_idx]
